import Mathlib

/-!
# Verification of the convertym register delta tracker and stream encoder

Shallow embedding of `src/convertym.cpp` (the `main` conversion loop and the
two serializers).  The external YM decoder (StSound) is out of scope; its
per-frame output is modelled as a list of register snapshots, per the spec's
data model (each register entry is a sentinel "unset" negative value or an
8-bit value).  Machine integers are modelled as `Int`/`Nat` with explicit
`% 256` where the C++ code narrows to `uint8_t`.
-/

/-- Number of AY-3-891x registers (`YMNUMREGISTERS` from the StSound library
headers; the spec's register count R, 16 for this chip). -/
def YMNUMREGISTERS : Nat := 16

/-- One frame's register snapshot from the decoder (`YMCurrentSample.registers`):
an `int` per register, negative meaning "unset this frame". -/
structure Snapshot where
  registers : Fin YMNUMREGISTERS → Int

/-- A register is marked "set" in the snapshot when its entry is non-negative
(the `>= 0` test in the C++ loop). -/
def Snapshot.isSet (s : Snapshot) (i : Fin YMNUMREGISTERS) : Prop :=
  0 ≤ s.registers i

instance (s : Snapshot) (i : Fin YMNUMREGISTERS) : Decidable (s.isSet i) :=
  inferInstanceAs (Decidable (0 ≤ s.registers i))

/-- The tracker's chip-state array `chip_register_value` (an `int` per
register). -/
def ChipState : Type := Fin YMNUMREGISTERS → Int

/-- Initialization loop: every register starts at the sentinel `-1`
("never written"). -/
def initChipState : ChipState := fun _ => -1

/-- In-place array store `chip_register_value[i] = v`. -/
def updReg (c : ChipState) (i : Fin YMNUMREGISTERS) (v : Int) : ChipState :=
  fun j => if j = i then v else c j

/-- First pass of the frame loop: `num_new`, the number of set registers whose
snapshot value differs from the chip state. -/
def changedCount (chip : ChipState) (snap : Snapshot) : Nat :=
  (List.finRange YMNUMREGISTERS).countP
    (fun i => decide (0 ≤ snap.registers i ∧ snap.registers i ≠ chip i))

/-- Mutable state of the second pass over one frame: the chip-state array, the
`settings->values` entries written so far (as (reg, val) byte pairs, in write
order) and the `num_set` counter. -/
structure ScanState where
  chip : ChipState
  pairs : List (Nat × Nat)
  num_set : Nat

/-- The emission test of the second pass, exactly as written in the C++
condition: `(!skip_duplicates) ||
(skip_duplicates && (!num_new) && (!num_set)) ||
(skip_duplicates && registers[i] != chip_register_value[i])`. -/
def emitCond (skip_duplicates : Bool) (num_new num_set : Nat) (r c : Int) : Bool :=
  (! skip_duplicates) ||
    (skip_duplicates && decide (num_new = 0) && decide (num_set = 0)) ||
    (skip_duplicates && decide (r ≠ c))

/-- One iteration of the second pass at register `i`: if the register is set
and the emission test passes, record `(i, value)` (both narrowed to `uint8_t`),
bump `num_set`, and store the snapshot value into the chip state. -/
def scanStep (skip_duplicates : Bool) (num_new : Nat) (snap : Snapshot)
    (st : ScanState) (i : Fin YMNUMREGISTERS) : ScanState :=
  let r := snap.registers i
  if 0 ≤ r then
    if emitCond skip_duplicates num_new st.num_set r (st.chip i) then
      { chip := updReg st.chip i r,
        pairs := st.pairs ++ [(i.val, r.toNat % 256)],
        num_set := st.num_set + 1 }
    else st
  else st

/-- The second pass over a list of register indices (the C++ `for` loop runs it
over `0..YMNUMREGISTERS-1` in ascending order). -/
def scanRegs (skip_duplicates : Bool) (num_new : Nat) (snap : Snapshot)
    (st : ScanState) (l : List (Fin YMNUMREGISTERS)) : ScanState :=
  l.foldl (scanStep skip_duplicates num_new snap) st

/-- Process one ready frame: compute `num_new` over all registers, then run the
emission pass over all registers in ascending id order. -/
def processFrame (skip_duplicates : Bool) (chip : ChipState) (snap : Snapshot) :
    ScanState :=
  scanRegs skip_duplicates (changedCount chip snap) snap
    ⟨chip, [], 0⟩ (List.finRange YMNUMREGISTERS)

/-- One `RegisterSettings` record pushed into `samples`: the `num` byte counter
and the recorded (reg, val) pairs. -/
structure Sample where
  num : Nat
  pairs : List (Nat × Nat)
deriving DecidableEq

/-- Whole-run mutable state: the chip-state array and the `samples` vector. -/
structure RunState where
  chip : ChipState
  samples : List Sample

/-- The body of the `while` loop for one ready frame: run the two passes, and
push the settings record only when `num_set` is non-zero (otherwise the frame
is dropped and the record deleted). -/
def processSnapshot (skip_duplicates : Bool) (st : RunState) (snap : Snapshot) :
    RunState :=
  let res := processFrame skip_duplicates st.chip snap
  { chip := res.chip,
    samples :=
      if res.num_set ≠ 0 then st.samples ++ [⟨res.num_set, res.pairs⟩]
      else st.samples }

/-- The whole conversion loop over the decoder's frame sequence, starting from
the freshly initialized chip state and an empty samples vector. -/
def runTracker (skip_duplicates : Bool) (snaps : List Snapshot) : RunState :=
  snaps.foldl (processSnapshot skip_duplicates) ⟨initChipState, []⟩

/-! ## Binary (PSYM) serialization

The binary writer emits a byte stream: the 5 ASCII bytes `PSYM1`, the raw
4 bytes of the `uint32_t` clock frequency (`fs.write`, little-endian on the
target), the single `uint8_t` rate byte, the raw 8 bytes of the `std::size_t`
sample count, then one record per sample.  Bytes are modelled as `Nat` values
below 256. -/

/-- The ASCII bytes of the 5-byte magic tag `"PSYM1"`. -/
def magicPSYM : List Nat := [80, 83, 89, 77, 49]

/-- Little-endian byte encoding of `n` on `k` bytes (the memory image that
`fs.write` dumps for a `k`-byte unsigned integer). -/
def encodeLE : Nat → Nat → List Nat
  | 0, _ => []
  | k + 1, n => n % 256 :: encodeLE k (n / 256)

/-- Value of a little-endian byte list. -/
def decodeLE : List Nat → Nat
  | [] => 0
  | b :: bs => b + 256 * decodeLE bs

/-- The bytes of one per-sample record: the `num` count byte, then the first
`num` stored (register, value) byte pairs (the writer loop runs `j < s->num`
over the `values` array). -/
def sampleRecord (s : Sample) : List Nat :=
  s.num :: (s.pairs.take s.num).flatMap (fun p => [p.1, p.2])

/-- The whole binary output stream of the run. -/
def psymOutput (clockFreq rateHz : Nat) (samples : List Sample) : List Nat :=
  magicPSYM ++ encodeLE 4 clockFreq ++ encodeLE 1 rateHz ++
    encodeLE 8 samples.length ++ samples.flatMap sampleRecord

/-! A decoder for the binary format, used to state that the emitted stream
has exactly the declared layout: a consumer reading the magic tag, the three
header fields and then exactly sample-count records consumes the whole
stream and recovers the serialized data. -/

/-- Read exactly `k` bytes from the front of a stream. -/
def readBytes (k : Nat) (bs : List Nat) : Option (List Nat × List Nat) :=
  if k ≤ bs.length then some (bs.take k, bs.drop k) else none

/-- Read `n` (register, value) byte pairs. -/
def readPairs : Nat → List Nat → Option (List (Nat × Nat) × List Nat)
  | 0, bs => some ([], bs)
  | n + 1, r :: v :: bs =>
    match readPairs n bs with
    | some (ps, rest) => some ((r, v) :: ps, rest)
    | none => none
  | _ + 1, _ => none

/-- Read `n` per-sample records, each a count byte followed by that many
pairs. -/
def readRecords : Nat → List Nat → Option (List (Nat × List (Nat × Nat)) × List Nat)
  | 0, bs => some ([], bs)
  | _ + 1, [] => none
  | n + 1, c :: bs =>
    match readPairs c bs with
    | some (ps, rest) =>
      match readRecords n rest with
      | some (rs, rest2) => some ((c, ps) :: rs, rest2)
      | none => none
    | none => none

/-- Decode a full PSYM stream: magic tag, 4-byte LE clock, 1-byte rate,
8-byte LE sample count, then exactly sample-count records and nothing else. -/
def readPSYM (bs : List Nat) :
    Option (Nat × Nat × Nat × List (Nat × List (Nat × Nat))) :=
  (readBytes 5 bs).bind (fun t1 =>
    if t1.1 = magicPSYM then
      (readBytes 4 t1.2).bind (fun t2 =>
        (readBytes 1 t2.2).bind (fun t3 =>
          (readBytes 8 t3.2).bind (fun t4 =>
            (readRecords (decodeLE t4.1) t4.2).bind (fun t5 =>
              if t5.2 = [] then
                some (decodeLE t2.1, decodeLE t3.1, decodeLE t4.1, t5.1)
              else none))))
    else none)

/-! ## Textual (pure python) serialization

The `-p` writer prints a python listing.  `operator<<` renders the
`uint32_t` clock and the `std::size_t` count as decimal numerals, but the
`uint8_t` rate as a single raw character (no `(int)` cast in the source), so
the rate field carries the character whose code is the rate byte. -/

/-- One decimal digit character. -/
def digitChar (d : Nat) : Char :=
  if d = 0 then '0' else if d = 1 then '1' else if d = 2 then '2'
  else if d = 3 then '3' else if d = 4 then '4' else if d = 5 then '5'
  else if d = 6 then '6' else if d = 7 then '7' else if d = 8 then '8'
  else '9'

/-- Digits of `n`, most significant first; `fuel` bounds the recursion (any
fuel of at least `n` gives all digits). -/
def decDigits : Nat → Nat → List Char
  | _, 0 => []
  | 0, _ + 1 => []
  | f + 1, n + 1 => decDigits f ((n + 1) / 10) ++ [digitChar ((n + 1) % 10)]

/-- Decimal rendering of an unsigned integer, as `operator<<` prints it. -/
def decStr (n : Nat) : String :=
  if n = 0 then "0" else String.mk (decDigits n n)

/-- The single-quote character of the python listing. -/
def quoteStr : String := String.singleton (Char.ofNat 39)

/-- The `SongInfo` metadata line: clock and count decimal, the `uint8_t` rate
as one raw character. -/
def pyHeader (clockFreq rateHz numsamps : Nat) : String :=
  "SongInfo = \x7b" ++ quoteStr ++ "clock" ++ quoteStr ++ ": " ++
    decStr clockFreq ++ ", " ++ quoteStr ++ "rate" ++ quoteStr ++ ": " ++
    String.singleton (Char.ofNat (rateHz % 256)) ++ ", " ++ quoteStr ++
    "num" ++ quoteStr ++ ": " ++ decStr numsamps ++ "\x7d\n"

/-- One `(reg,val)` pair as printed with the `(int)` casts. -/
def renderPair (p : Nat × Nat) : String :=
  "(" ++ decStr p.1 ++ "," ++ decStr p.2 ++ ")"

/-- The pairs after the first one, each preceded by the `j > 0` comma. -/
def pairsRest : List (Nat × Nat) → String
  | [] => ""
  | p :: ps => "," ++ renderPair p ++ pairsRest ps

/-- The comma-separated pair list of one sample. -/
def pairsStr : List (Nat × Nat) → String
  | [] => ""
  | p :: ps => renderPair p ++ pairsRest ps

/-- The sample lines of the `Song` listing.  `reg_count` is the running pair
counter: a tab is printed when it is zero at a sample start, it grows by the
sample's `num` pairs, and above 10 it resets with a newline (cosmetic
line-wrapping only). -/
def pyBody : List Sample → Nat → String
  | [], _ => ""
  | s :: rest, reg_count =>
    let pre := if reg_count = 0 then "\t" else ""
    let entry := "[" ++ pairsStr (s.pairs.take s.num) ++ "],"
    let rc2 := reg_count + s.num
    if 10 < rc2 then pre ++ entry ++ "\n" ++ pyBody rest 0
    else pre ++ entry ++ pyBody rest rc2

/-- The whole textual output of the run. -/
def pythonOutput (clockFreq rateHz : Nat) (samples : List Sample) : String :=
  pyHeader clockFreq rateHz samples.length ++
    "Song = [\n" ++ pyBody samples 0 ++ "]\n"

/-! Spec-side renderings, for comparison with the code's output.  The spec
declares line-wrapping cosmetic, so outputs are compared after erasing the
cosmetic whitespace (tabs and newlines). -/

/-- The characters of a string other than the cosmetic tab/newline
whitespace. -/
def visChars (s : String) : List Char :=
  s.data.filter (fun c => !(c == '\t' || c == '\n'))

/-- The sample sequence rendered with no cosmetic wrapping: one bracketed
pair list per sample, in order. -/
def specBody : List Sample → String
  | [] => ""
  | s :: rest => "[" ++ pairsStr s.pairs ++ "]," ++ specBody rest

/-- Modelled from the spec: the textual format contract of §4.2 — a metadata
mapping holding the clock frequency, sample rate and sample count values
under their keys (all as decimal numerals), then the ordered sample sequence.
This is the claimed reading of the output, to be compared with
`pythonOutput`. -/
def specTextualOutput (clockFreq rateHz : Nat) (samples : List Sample) : String :=
  "SongInfo = \x7b" ++ quoteStr ++ "clock" ++ quoteStr ++ ": " ++
    decStr clockFreq ++ ", " ++ quoteStr ++ "rate" ++ quoteStr ++ ": " ++
    decStr rateHz ++ ", " ++ quoteStr ++ "num" ++ quoteStr ++ ": " ++
    decStr samples.length ++ "\x7d\n" ++
    "Song = [\n" ++ specBody samples ++ "]\n"

/-- The amended reading of the textual output: as the spec's contract, except
that the sample-rate value is rendered as the single raw character whose
character code is the rate byte, not as a decimal numeral. -/
def specTextualAmended (clockFreq rateHz : Nat) (samples : List Sample) : String :=
  pyHeader clockFreq rateHz samples.length ++
    "Song = [\n" ++ specBody samples ++ "]\n"

/-! ## Helper lemmas on the emission scan -/

theorem scanRegs_nil (sk : Bool) (nn : Nat) (snap : Snapshot) (st : ScanState) :
    scanRegs sk nn snap st [] = st := rfl

theorem scanRegs_cons (sk : Bool) (nn : Nat) (snap : Snapshot) (st : ScanState)
    (i : Fin YMNUMREGISTERS) (l : List (Fin YMNUMREGISTERS)) :
    scanRegs sk nn snap st (i :: l)
      = scanRegs sk nn snap (scanStep sk nn snap st i) l := rfl

theorem scanStep_unset (sk : Bool) (nn : Nat) (snap : Snapshot) (st : ScanState)
    (i : Fin YMNUMREGISTERS) (h : ¬ 0 ≤ snap.registers i) :
    scanStep sk nn snap st i = st := by
  simp [scanStep, h]

theorem scanStep_noemit (sk : Bool) (nn : Nat) (snap : Snapshot) (st : ScanState)
    (i : Fin YMNUMREGISTERS)
    (hc : emitCond sk nn st.num_set (snap.registers i) (st.chip i) = false) :
    scanStep sk nn snap st i = st := by
  simp only [scanStep]
  split
  · rw [hc]; simp
  · rfl

theorem scanStep_emit (sk : Bool) (nn : Nat) (snap : Snapshot) (st : ScanState)
    (i : Fin YMNUMREGISTERS) (h : 0 ≤ snap.registers i)
    (hc : emitCond sk nn st.num_set (snap.registers i) (st.chip i) = true) :
    scanStep sk nn snap st i =
      { chip := updReg st.chip i (snap.registers i),
        pairs := st.pairs ++ [(i.val, (snap.registers i).toNat % 256)],
        num_set := st.num_set + 1 } := by
  simp only [scanStep, if_pos h, hc, if_pos]

/-- With deduplication disabled, the scan emits every set register of the
scanned index list, in order, and stores each snapshot value. -/
theorem scan_false_spec (nn : Nat) (snap : Snapshot) :
    ∀ (l : List (Fin YMNUMREGISTERS)) (st : ScanState),
    (scanRegs false nn snap st l).pairs
        = st.pairs ++ (l.filter (fun i => decide (0 ≤ snap.registers i))).map
            (fun i => (i.val, (snap.registers i).toNat % 256))
    ∧ (scanRegs false nn snap st l).num_set
        = st.num_set + (l.filter (fun i => decide (0 ≤ snap.registers i))).length
    ∧ ∀ j, (scanRegs false nn snap st l).chip j
        = if j ∈ l ∧ 0 ≤ snap.registers j then snap.registers j else st.chip j
  | [], st => by simp [scanRegs_nil]
  | i :: l, st => by
    rw [scanRegs_cons]
    by_cases hi : 0 ≤ snap.registers i
    · have hc : emitCond false nn st.num_set (snap.registers i) (st.chip i) = true := by
        simp [emitCond]
      rw [scanStep_emit false nn snap st i hi hc]
      obtain ⟨h1, h2, h3⟩ := scan_false_spec nn snap l _
      refine ⟨?_, ?_, ?_⟩
      · rw [h1]; simp [hi, List.append_assoc]
      · rw [h2]; simp [hi]; omega
      · intro j
        rw [h3 j]
        by_cases hj : j ∈ l ∧ 0 ≤ snap.registers j
        · simp [hj, hj.1, hj.2]
        · by_cases hji : j = i
          · subst hji
            simp [hi, updReg]
          · simp only [updReg, if_neg hji]
            have hni : ¬ ((j = i ∨ j ∈ l) ∧ 0 ≤ snap.registers j) := by
              rintro ⟨hm | hm, hs⟩
              · exact hji hm
              · exact hj ⟨hm, hs⟩
            simp only [List.mem_cons, if_neg hj, if_neg hni]
    · rw [scanStep_unset false nn snap st i hi]
      obtain ⟨h1, h2, h3⟩ := scan_false_spec nn snap l st
      refine ⟨?_, ?_, ?_⟩
      · rw [h1]; simp [hi]
      · rw [h2]; simp [hi]
      · intro j
        rw [h3 j]
        by_cases hji : j = i
        · subst hji; simp [hi]
        · simp [List.mem_cons, hji]

/-- With deduplication enabled and a non-zero `num_new`, the scan emits
exactly the set registers whose value differs from the chip state at frame
entry, in scan order, updating the chip state at exactly those registers. -/
theorem scan_true_pos (nn : Nat) (hnn : nn ≠ 0) (snap : Snapshot) (chip0 : ChipState) :
    ∀ (l : List (Fin YMNUMREGISTERS)) (st : ScanState), l.Nodup →
    (∀ i ∈ l, st.chip i = chip0 i) →
    (scanRegs true nn snap st l).pairs
        = st.pairs ++
          (l.filter (fun i =>
              decide (0 ≤ snap.registers i ∧ snap.registers i ≠ chip0 i))).map
            (fun i => (i.val, (snap.registers i).toNat % 256))
    ∧ (scanRegs true nn snap st l).num_set
        = st.num_set +
          (l.filter (fun i =>
              decide (0 ≤ snap.registers i ∧ snap.registers i ≠ chip0 i))).length
    ∧ ∀ j, (scanRegs true nn snap st l).chip j
        = if j ∈ l ∧ 0 ≤ snap.registers j ∧ snap.registers j ≠ chip0 j
          then snap.registers j else st.chip j
  | [], st => by intro _ _; simp [scanRegs_nil]
  | i :: l, st => by
    intro hnd hchip
    have hchipi : st.chip i = chip0 i := hchip i (List.mem_cons_self i l)
    have hinl : i ∉ l := (List.nodup_cons.mp hnd).1
    have hndl : l.Nodup := (List.nodup_cons.mp hnd).2
    rw [scanRegs_cons]
    by_cases hi : 0 ≤ snap.registers i
    · by_cases hd : snap.registers i ≠ chip0 i
      · have hc : emitCond true nn st.num_set (snap.registers i) (st.chip i) = true := by
          rw [hchipi]; simp [emitCond, hd]
        rw [scanStep_emit true nn snap st i hi hc]
        have hchip2 : ∀ j ∈ l, (updReg st.chip i (snap.registers i)) j = chip0 j := by
          intro j hj
          have : j ≠ i := fun h => hinl (h ▸ hj)
          simp only [updReg, if_neg this]
          exact hchip j (List.mem_cons_of_mem i hj)
        obtain ⟨h1, h2, h3⟩ := scan_true_pos nn hnn snap chip0 l
          { chip := updReg st.chip i (snap.registers i),
            pairs := st.pairs ++ [(i.val, (snap.registers i).toNat % 256)],
            num_set := st.num_set + 1 } hndl hchip2
        refine ⟨?_, ?_, ?_⟩
        · rw [h1]; simp [hi, hd, List.append_assoc]
        · rw [h2]; simp [hi, hd]; omega
        · intro j
          rw [h3 j]
          by_cases hj : j ∈ l ∧ 0 ≤ snap.registers j ∧ snap.registers j ≠ chip0 j
          · simp only [if_pos hj]
            have : (j = i ∨ j ∈ l) ∧ 0 ≤ snap.registers j ∧ snap.registers j ≠ chip0 j :=
              ⟨Or.inr hj.1, hj.2⟩
            simp only [List.mem_cons, if_pos this]
          · by_cases hji : j = i
            · subst hji
              simp only [if_neg hj, List.mem_cons, updReg, if_pos rfl]
              simp [hi, hd]
            · have hnj : ¬ ((j = i ∨ j ∈ l) ∧ 0 ≤ snap.registers j ∧ snap.registers j ≠ chip0 j) := by
                rintro ⟨hm | hm, hs⟩
                · exact hji hm
                · exact hj ⟨hm, hs⟩
              simp only [if_neg hj, List.mem_cons, if_neg hnj, updReg, if_neg hji]
      · have hrr : snap.registers i = chip0 i := not_not.mp hd
        have hc : emitCond true nn st.num_set (snap.registers i) (st.chip i) = false := by
          rw [hchipi]; simp [emitCond, hnn, hrr]
        rw [scanStep_noemit true nn snap st i hc]
        obtain ⟨h1, h2, h3⟩ := scan_true_pos nn hnn snap chip0 l st hndl
          (fun j hj => hchip j (List.mem_cons_of_mem i hj))
        refine ⟨?_, ?_, ?_⟩
        · rw [h1]; simp [hrr]
        · rw [h2]; simp [hrr]
        · intro j
          rw [h3 j]
          by_cases hji : j = i
          · subst hji; simp [hrr]
          · simp [List.mem_cons, hji]
    · rw [scanStep_unset true nn snap st i hi]
      obtain ⟨h1, h2, h3⟩ := scan_true_pos nn hnn snap chip0 l st hndl
        (fun j hj => hchip j (List.mem_cons_of_mem i hj))
      refine ⟨?_, ?_, ?_⟩
      · rw [h1]; simp [hi]
      · rw [h2]; simp [hi]
      · intro j
        rw [h3 j]
        by_cases hji : j = i
        · subst hji; simp [hi]
        · simp [List.mem_cons, hji]

/-- With deduplication enabled and `num_new = 0` over a frame where every set
register already holds its chip-state value, the scan emits the first set
register when nothing has been emitted yet, and nothing else; the chip state
is left unchanged. -/
theorem scan_true_zero (snap : Snapshot) (chip0 : ChipState) :
    ∀ (l : List (Fin YMNUMREGISTERS)) (st : ScanState),
    (∀ i ∈ l, st.chip i = chip0 i) →
    (∀ i ∈ l, 0 ≤ snap.registers i → snap.registers i = chip0 i) →
    (scanRegs true 0 snap st l).pairs
        = st.pairs ++
          (if st.num_set = 0 then
            ((l.find? (fun i => decide (0 ≤ snap.registers i))).map
              (fun i => (i.val, (snap.registers i).toNat % 256))).toList
          else [])
    ∧ (scanRegs true 0 snap st l).num_set
        = st.num_set +
          (if st.num_set = 0 then
            ((l.find? (fun i => decide (0 ≤ snap.registers i))).map
              (fun i => (i.val, (snap.registers i).toNat % 256))).toList.length
          else 0)
    ∧ ∀ j, (scanRegs true 0 snap st l).chip j = st.chip j
  | [], st => by intro _ _; simp [scanRegs_nil]
  | i :: l, st => by
    intro hchip hrep
    have hchipi : st.chip i = chip0 i := hchip i (List.mem_cons_self i l)
    rw [scanRegs_cons]
    by_cases hi : 0 ≤ snap.registers i
    · have hri : snap.registers i = st.chip i := by
        rw [hchipi]; exact hrep i (List.mem_cons_self i l) hi
      have hfind : (i :: l).find? (fun i => decide (0 ≤ snap.registers i)) = some i :=
        List.find?_cons_of_pos l (by simpa using hi)
      by_cases hns : st.num_set = 0
      · have hc : emitCond true 0 st.num_set (snap.registers i) (st.chip i) = true := by
          simp [emitCond, hns]
        rw [scanStep_emit true 0 snap st i hi hc]
        have hupd : ∀ j, updReg st.chip i (snap.registers i) j = st.chip j := by
          intro j
          by_cases hji : j = i
          · subst hji; simp [updReg, hri]
          · simp [updReg, hji]
        have hchip2 : ∀ j ∈ l, (updReg st.chip i (snap.registers i)) j = chip0 j := by
          intro j hj
          rw [hupd j]; exact hchip j (List.mem_cons_of_mem i hj)
        obtain ⟨h1, h2, h3⟩ := scan_true_zero snap chip0 l
          { chip := updReg st.chip i (snap.registers i),
            pairs := st.pairs ++ [(i.val, (snap.registers i).toNat % 256)],
            num_set := st.num_set + 1 } hchip2
          (fun j hj => hrep j (List.mem_cons_of_mem i hj))
        have hns1 : ¬ (st.num_set + 1 = 0) := Nat.succ_ne_zero _
        refine ⟨?_, ?_, ?_⟩
        · rw [h1]; simp only [hns1, if_neg hns1, if_pos hns, hfind]
          simp
        · rw [h2]; simp only [if_neg hns1, if_pos hns, hfind]
          simp
        · intro j
          rw [h3 j]; exact hupd j
      · have hc : emitCond true 0 st.num_set (snap.registers i) (st.chip i) = false := by
          simp [emitCond, hns, hri]
        rw [scanStep_noemit true 0 snap st i hc]
        obtain ⟨h1, h2, h3⟩ := scan_true_zero snap chip0 l st
          (fun j hj => hchip j (List.mem_cons_of_mem i hj))
          (fun j hj => hrep j (List.mem_cons_of_mem i hj))
        refine ⟨?_, ?_, ?_⟩
        · rw [h1]; simp [hns]
        · rw [h2]; simp [hns]
        · exact h3
    · rw [scanStep_unset true 0 snap st i hi]
      have hfind : (i :: l).find? (fun i => decide (0 ≤ snap.registers i))
          = l.find? (fun i => decide (0 ≤ snap.registers i)) :=
        List.find?_cons_of_neg l (by simpa using hi)
      obtain ⟨h1, h2, h3⟩ := scan_true_zero snap chip0 l st
        (fun j hj => hchip j (List.mem_cons_of_mem i hj))
        (fun j hj => hrep j (List.mem_cons_of_mem i hj))
      exact ⟨by rw [h1, hfind], by rw [h2, hfind], h3⟩

/-- The scan never reads or writes the chip state at a register the snapshot
leaves unset: two runs from states agreeing on all set registers (with equal
pairs and counters) stay in lock step. -/
theorem scan_congr (sk : Bool) (nn : Nat) (snap : Snapshot) :
    ∀ (l : List (Fin YMNUMREGISTERS)) (st1 st2 : ScanState),
    st1.pairs = st2.pairs → st1.num_set = st2.num_set →
    (∀ k, 0 ≤ snap.registers k → st1.chip k = st2.chip k) →
    (scanRegs sk nn snap st1 l).pairs = (scanRegs sk nn snap st2 l).pairs
    ∧ (scanRegs sk nn snap st1 l).num_set = (scanRegs sk nn snap st2 l).num_set
    ∧ ∀ k, 0 ≤ snap.registers k →
        (scanRegs sk nn snap st1 l).chip k = (scanRegs sk nn snap st2 l).chip k
  | [], st1, st2 => by intro h1 h2 h3; exact ⟨h1, h2, h3⟩
  | i :: l, st1, st2 => by
    intro h1 h2 h3
    rw [scanRegs_cons, scanRegs_cons]
    by_cases hi : 0 ≤ snap.registers i
    · have hchipeq : st1.chip i = st2.chip i := h3 i hi
      by_cases hc : emitCond sk nn st2.num_set (snap.registers i) (st2.chip i) = true
      · have hc1 : emitCond sk nn st1.num_set (snap.registers i) (st1.chip i) = true := by
          rw [h2, hchipeq]; exact hc
        rw [scanStep_emit sk nn snap st1 i hi hc1, scanStep_emit sk nn snap st2 i hi hc]
        exact scan_congr sk nn snap l _ _ (by simp [h1]) (by simp [h2])
          (by
            intro k hk
            by_cases hki : k = i
            · subst hki; simp [updReg]
            · simp only [updReg, if_neg hki]; exact h3 k hk)
      · have hcf : emitCond sk nn st2.num_set (snap.registers i) (st2.chip i) = false :=
          Bool.not_eq_true _ ▸ (Bool.eq_false_iff.mpr hc)
        have hc1 : emitCond sk nn st1.num_set (snap.registers i) (st1.chip i) = false := by
          rw [h2, hchipeq]; exact hcf
        rw [scanStep_noemit sk nn snap st1 i hc1, scanStep_noemit sk nn snap st2 i hcf]
        exact scan_congr sk nn snap l st1 st2 h1 h2 h3
    · rw [scanStep_unset sk nn snap st1 i hi, scanStep_unset sk nn snap st2 i hi]
      exact scan_congr sk nn snap l st1 st2 h1 h2 h3

/-- The `num_set` counter always equals the number of recorded pairs. -/
theorem scan_num_eq (sk : Bool) (nn : Nat) (snap : Snapshot) :
    ∀ (l : List (Fin YMNUMREGISTERS)) (st : ScanState),
    st.num_set = st.pairs.length →
    (scanRegs sk nn snap st l).num_set = (scanRegs sk nn snap st l).pairs.length
  | [], st => by intro h; exact h
  | i :: l, st => by
    intro h
    rw [scanRegs_cons]
    by_cases hi : 0 ≤ snap.registers i
    · by_cases hc : emitCond sk nn st.num_set (snap.registers i) (st.chip i) = true
      · rw [scanStep_emit sk nn snap st i hi hc]
        exact scan_num_eq sk nn snap l _ (by simp [h])
      · rw [scanStep_noemit sk nn snap st i (Bool.eq_false_iff.mpr hc)]
        exact scan_num_eq sk nn snap l st h
    · rw [scanStep_unset sk nn snap st i hi]
      exact scan_num_eq sk nn snap l st h

/-- The `num_set` counter grows by at most one per scanned register. -/
theorem scan_num_le (sk : Bool) (nn : Nat) (snap : Snapshot) :
    ∀ (l : List (Fin YMNUMREGISTERS)) (st : ScanState),
    (scanRegs sk nn snap st l).num_set ≤ st.num_set + l.length
  | [], st => by simp [scanRegs_nil]
  | i :: l, st => by
    rw [scanRegs_cons]
    by_cases hi : 0 ≤ snap.registers i
    · by_cases hc : emitCond sk nn st.num_set (snap.registers i) (st.chip i) = true
      · rw [scanStep_emit sk nn snap st i hi hc]
        have := scan_num_le sk nn snap l
          { chip := updReg st.chip i (snap.registers i),
            pairs := st.pairs ++ [(i.val, (snap.registers i).toNat % 256)],
            num_set := st.num_set + 1 }
        simp only [List.length_cons] at this ⊢
        omega
      · rw [scanStep_noemit sk nn snap st i (Bool.eq_false_iff.mpr hc)]
        have := scan_num_le sk nn snap l st
        simp only [List.length_cons]
        omega
    · rw [scanStep_unset sk nn snap st i hi]
      have := scan_num_le sk nn snap l st
      simp only [List.length_cons]
      omega

/-- The count `num_new` is zero exactly when no set register differs from the chip state. -/
theorem changedCount_eq_zero_iff (chip : ChipState) (snap : Snapshot) :
    changedCount chip snap = 0 ↔
      ∀ i, 0 ≤ snap.registers i → snap.registers i = chip i := by
  unfold changedCount
  rw [List.countP_eq_zero]
  constructor
  · intro h i hi
    have := h i (List.mem_finRange i)
    simp at this
    exact this hi
  · intro h i _
    simp
    exact h i

/-- The count `num_new` counts exactly the registers the positive-regime scan emits. -/
theorem changedCount_eq_filter_length (chip : ChipState) (snap : Snapshot) :
    changedCount chip snap
      = ((List.finRange YMNUMREGISTERS).filter (fun i =>
          decide (0 ≤ snap.registers i ∧ snap.registers i ≠ chip i))).length :=
  List.countP_eq_length_filter _ _

/-- On a strictly sorted list, `find?` returns a minimal element among those
satisfying the predicate. -/
theorem find?_min_of_sorted (p : Fin YMNUMREGISTERS → Bool) :
    ∀ (l : List (Fin YMNUMREGISTERS)), l.Pairwise (· < ·) →
    ∀ a, l.find? p = some a → ∀ b ∈ l, p b → a ≤ b
  | [], _, a, h => by simp [List.find?] at h
  | x :: l, hs, a, h => by
    intro b hb hpb
    rcases List.pairwise_cons.mp hs with ⟨hx, hl⟩
    by_cases hpx : p x = true
    · rw [List.find?_cons_of_pos l hpx] at h
      have hax : x = a := Option.some.inj h
      subst hax
      rcases List.mem_cons.mp hb with hbx | hbl
      · subst hbx; exact le_refl _
      · exact le_of_lt (hx b hbl)
    · rw [List.find?_cons_of_neg l (by simpa using hpx)] at h
      rcases List.mem_cons.mp hb with hbx | hbl
      · subst hbx; exact absurd hpb hpx
      · exact find?_min_of_sorted p l hl a h b hbl hpb

/-- Closed form of a frame with deduplication disabled. -/
theorem processFrame_false_spec (chip : ChipState) (snap : Snapshot) :
    (processFrame false chip snap).pairs
        = ((List.finRange YMNUMREGISTERS).filter (fun i =>
            decide (0 ≤ snap.registers i))).map
            (fun i => (i.val, (snap.registers i).toNat % 256))
    ∧ (processFrame false chip snap).num_set
        = ((List.finRange YMNUMREGISTERS).filter (fun i =>
            decide (0 ≤ snap.registers i))).length
    ∧ ∀ j, (processFrame false chip snap).chip j
        = if 0 ≤ snap.registers j then snap.registers j else chip j := by
  obtain ⟨h1, h2, h3⟩ := scan_false_spec (changedCount chip snap) snap
    (List.finRange YMNUMREGISTERS) ⟨chip, [], 0⟩
  refine ⟨by simpa using h1, by simpa using h2, ?_⟩
  intro j
  have := h3 j
  simpa [List.mem_finRange] using this

/-- Closed form of a dedup frame whose `num_new` is positive. -/
theorem processFrame_true_pos_spec (chip : ChipState) (snap : Snapshot)
    (h : changedCount chip snap ≠ 0) :
    (processFrame true chip snap).pairs
        = ((List.finRange YMNUMREGISTERS).filter (fun i =>
            decide (0 ≤ snap.registers i ∧ snap.registers i ≠ chip i))).map
            (fun i => (i.val, (snap.registers i).toNat % 256))
    ∧ (processFrame true chip snap).num_set
        = ((List.finRange YMNUMREGISTERS).filter (fun i =>
            decide (0 ≤ snap.registers i ∧ snap.registers i ≠ chip i))).length
    ∧ ∀ j, (processFrame true chip snap).chip j
        = if 0 ≤ snap.registers j ∧ snap.registers j ≠ chip j
          then snap.registers j else chip j := by
  obtain ⟨h1, h2, h3⟩ := scan_true_pos (changedCount chip snap) h snap chip
    (List.finRange YMNUMREGISTERS) ⟨chip, [], 0⟩
    (List.nodup_finRange YMNUMREGISTERS) (fun _ _ => rfl)
  refine ⟨by simpa using h1, by simpa using h2, ?_⟩
  intro j
  have := h3 j
  simpa [List.mem_finRange] using this

/-- Closed form of a dedup frame whose `num_new` is zero: the first set
register (if any) is emitted, alone, and the chip state is untouched. -/
theorem processFrame_true_zero_spec (chip : ChipState) (snap : Snapshot)
    (h : changedCount chip snap = 0) :
    (processFrame true chip snap).pairs
        = (((List.finRange YMNUMREGISTERS).find? (fun i =>
            decide (0 ≤ snap.registers i))).map
            (fun i => (i.val, (snap.registers i).toNat % 256))).toList
    ∧ (processFrame true chip snap).num_set
        = (((List.finRange YMNUMREGISTERS).find? (fun i =>
            decide (0 ≤ snap.registers i))).map
            (fun i => (i.val, (snap.registers i).toNat % 256))).toList.length
    ∧ ∀ j, (processFrame true chip snap).chip j = chip j := by
  have hrep : ∀ i ∈ List.finRange YMNUMREGISTERS,
      0 ≤ snap.registers i → snap.registers i = chip i := by
    intro i _ hi
    exact (changedCount_eq_zero_iff chip snap).mp h i hi
  obtain ⟨h1, h2, h3⟩ := scan_true_zero snap chip
    (List.finRange YMNUMREGISTERS) ⟨chip, [], 0⟩ (fun _ _ => rfl) hrep
  unfold processFrame
  rw [h]
  exact ⟨by simpa using h1, by simpa using h2, fun j => h3 j⟩

/-- C1: with deduplication enabled, a register marked "set" in the snapshot is
emitted iff its snapshot value differs from the frame-entry chip-state value,
or `num_new` is zero and no register earlier in the scan was emitted; unset
registers are never emitted, the special case yields at most one pair, every
emitted id is a real register id, and the pairs are in ascending id order. -/
theorem dedup_emission_rule (chip : ChipState) (snap : Snapshot) :
    (∀ (i : Fin YMNUMREGISTERS) (v : Nat),
      ((i.val, v) ∈ (processFrame true chip snap).pairs ↔
        (0 ≤ snap.registers i ∧ v = (snap.registers i).toNat % 256 ∧
          (snap.registers i ≠ chip i ∨
            (changedCount chip snap = 0 ∧
              ∀ q ∈ (processFrame true chip snap).pairs, i.val ≤ q.1)))))
    ∧ (changedCount chip snap = 0 → (processFrame true chip snap).pairs.length ≤ 1)
    ∧ (∀ q ∈ (processFrame true chip snap).pairs, q.1 < YMNUMREGISTERS)
    ∧ List.Pairwise (fun a b : Nat × Nat => a.1 < b.1)
        (processFrame true chip snap).pairs := by
  by_cases hz : changedCount chip snap = 0
  · obtain ⟨h1, _h2, _h3⟩ := processFrame_true_zero_spec chip snap hz
    have hrep : ∀ i, 0 ≤ snap.registers i → snap.registers i = chip i :=
      (changedCount_eq_zero_iff chip snap).mp hz
    cases hf : (List.finRange YMNUMREGISTERS).find?
        (fun i => decide (0 ≤ snap.registers i)) with
    | none =>
      have hnone : ∀ i : Fin YMNUMREGISTERS, ¬ 0 ≤ snap.registers i := by
        intro i hi
        have h2 := List.find?_eq_none.mp hf i (List.mem_finRange i)
        simp at h2
        omega
      have hpairs : (processFrame true chip snap).pairs = [] := by rw [h1, hf]; rfl
      refine ⟨?_, ?_, ?_, ?_⟩
      · intro i v
        rw [hpairs]
        simp only [List.not_mem_nil, false_iff]
        rintro ⟨hset, -, -⟩
        exact hnone i hset
      · intro _; rw [hpairs]; simp
      · intro q hq; rw [hpairs] at hq; simp at hq
      · rw [hpairs]; exact List.Pairwise.nil
    | some i0 =>
      have hset0 : 0 ≤ snap.registers i0 := by
        have := List.find?_some hf
        simpa using this
      have hmin : ∀ b ∈ List.finRange YMNUMREGISTERS,
          (fun i => decide (0 ≤ snap.registers i)) b = true → i0 ≤ b :=
        find?_min_of_sorted _ (List.finRange YMNUMREGISTERS)
          (List.pairwise_lt_finRange YMNUMREGISTERS) i0 hf
      have hpairs : (processFrame true chip snap).pairs
          = [(i0.val, (snap.registers i0).toNat % 256)] := by rw [h1, hf]; rfl
      refine ⟨?_, ?_, ?_, ?_⟩
      · intro i v
        rw [hpairs]
        constructor
        · intro hmem
          have heq : (i.val, v) = (i0.val, (snap.registers i0).toNat % 256) := by
            simpa using hmem
          have hii : i = i0 := Fin.val_inj.mp (congrArg Prod.fst heq)
          subst hii
          refine ⟨hset0, congrArg Prod.snd heq, Or.inr ⟨hz, ?_⟩⟩
          intro q hq
          have : q = (i.val, (snap.registers i).toNat % 256) := by simpa using hq
          rw [this]
        · rintro ⟨hset, hv, hdiff | ⟨-, hle⟩⟩
          · exact absurd (hrep i hset) hdiff
          · have h1le : i.val ≤ i0.val := by
              have := hle (i0.val, (snap.registers i0).toNat % 256) (by simp)
              simpa using this
            have h2le : i0 ≤ i := hmin i (List.mem_finRange i) (by simpa using hset)
            have : i = i0 := Fin.val_inj.mp (Nat.le_antisymm h1le h2le)
            subst this
            simp [hv]
      · intro _; rw [hpairs]; simp
      · intro q hq
        rw [hpairs] at hq
        have : q = (i0.val, (snap.registers i0).toNat % 256) := by simpa using hq
        rw [this]
        exact i0.isLt
      · rw [hpairs]
        exact List.pairwise_singleton _ _
  · obtain ⟨h1, _h2, _h3⟩ := processFrame_true_pos_spec chip snap hz
    refine ⟨?_, ?_, ?_, ?_⟩
    · intro i v
      constructor
      · intro hmem
        rw [h1] at hmem
        rcases List.mem_map.mp hmem with ⟨j, hj, hje⟩
        rcases List.mem_filter.mp hj with ⟨-, hjp⟩
        have hjp2 : 0 ≤ snap.registers j ∧ snap.registers j ≠ chip j :=
          of_decide_eq_true hjp
        have hij : j = i := Fin.val_inj.mp (congrArg Prod.fst hje)
        subst hij
        exact ⟨hjp2.1, (congrArg Prod.snd hje).symm, Or.inl hjp2.2⟩
      · rintro ⟨hset, hv, hdiff | ⟨hzero, -⟩⟩
        · rw [h1]
          refine List.mem_map.mpr ⟨i, List.mem_filter.mpr
            ⟨List.mem_finRange i, decide_eq_true ⟨hset, hdiff⟩⟩, ?_⟩
          rw [hv]
        · exact absurd hzero hz
    · intro h; exact absurd h hz
    · intro q hq
      rw [h1] at hq
      rcases List.mem_map.mp hq with ⟨j, -, hje⟩
      rw [← hje]
      exact j.isLt
    · rw [h1]
      exact List.Pairwise.map _
        (fun a b (hab : a < b) => by simpa using hab)
        (List.Pairwise.filter _ (List.pairwise_lt_finRange YMNUMREGISTERS))

/-- Membership in the filtered pair list of a scan determines the register. -/
theorem mem_filter_pairs_iff (P : Fin YMNUMREGISTERS → Bool) (snap : Snapshot)
    (i : Fin YMNUMREGISTERS) (v : Nat) :
    ((i.val, v) ∈ ((List.finRange YMNUMREGISTERS).filter P).map
        (fun j => (j.val, (snap.registers j).toNat % 256))) ↔
      (P i = true ∧ v = (snap.registers i).toNat % 256) := by
  constructor
  · intro h
    rcases List.mem_map.mp h with ⟨j, hj, hje⟩
    have hij : j = i := Fin.val_inj.mp (congrArg Prod.fst hje)
    subst hij
    exact ⟨(List.mem_filter.mp hj).2, (congrArg Prod.snd hje).symm⟩
  · rintro ⟨hp, hv⟩
    exact List.mem_map.mpr ⟨i, List.mem_filter.mpr ⟨List.mem_finRange i, hp⟩, by rw [hv]⟩

/-- The count `num_new` only reads the chip state at set registers. -/
theorem changedCount_congr (chip chip2 : ChipState) (snap : Snapshot)
    (h : ∀ k, 0 ≤ snap.registers k → chip2 k = chip k) :
    changedCount chip2 snap = changedCount chip snap := by
  unfold changedCount
  apply List.countP_congr
  intro x _
  by_cases hx : 0 ≤ snap.registers x
  · rw [h x hx]
  · simp [hx]

/-- C3: with deduplication enabled, a frame with at least one set register
whose every set register repeats the chip state emits exactly one pair. -/
theorem dedup_liveness (chip : ChipState) (snap : Snapshot)
    (hset : ∃ i, 0 ≤ snap.registers i)
    (hrep : ∀ i, 0 ≤ snap.registers i → snap.registers i = chip i) :
    (processFrame true chip snap).pairs.length = 1 := by
  have hz : changedCount chip snap = 0 := (changedCount_eq_zero_iff chip snap).mpr hrep
  obtain ⟨h1, -, -⟩ := processFrame_true_zero_spec chip snap hz
  obtain ⟨i, hi⟩ := hset
  cases hf : (List.finRange YMNUMREGISTERS).find?
      (fun i => decide (0 ≤ snap.registers i)) with
  | none =>
    exfalso
    have h2 := List.find?_eq_none.mp hf i (List.mem_finRange i)
    simp at h2
    omega
  | some i0 =>
    rw [h1, hf]
    rfl

/-- C3 witness: a concrete all-set repeat frame emits exactly one pair. -/
theorem dedup_liveness_witness :
    (processFrame true (fun _ => (5 : Int)) ⟨fun _ => (5 : Int)⟩).pairs.length = 1 :=
  dedup_liveness (fun _ => (5 : Int)) ⟨fun _ => (5 : Int)⟩
    ⟨⟨0, by decide⟩, by decide⟩ (fun _ _ => rfl)

/-- C5: with deduplication disabled, a frame emits exactly the set registers
of its snapshot, with their snapshot values unchanged, in ascending register
id order. -/
theorem nodedup_completeness (chip : ChipState) (snap : Snapshot)
    (hwf : ∀ i, snap.registers i ≤ 255) :
    (processFrame false chip snap).pairs
        = ((List.finRange YMNUMREGISTERS).filter (fun i =>
            decide (0 ≤ snap.registers i))).map
            (fun i => (i.val, (snap.registers i).toNat))
    ∧ List.Pairwise (fun a b : Nat × Nat => a.1 < b.1)
        (processFrame false chip snap).pairs := by
  obtain ⟨h1, -, -⟩ := processFrame_false_spec chip snap
  have hval : ∀ i : Fin YMNUMREGISTERS,
      (snap.registers i).toNat % 256 = (snap.registers i).toNat := by
    intro i
    apply Nat.mod_eq_of_lt
    have := hwf i
    omega
  constructor
  · rw [h1]
    exact List.map_congr_left (fun a _ => by rw [hval a])
  · rw [h1]
    exact List.Pairwise.map _
      (fun a b (hab : a < b) => by simpa using hab)
      (List.Pairwise.filter _ (List.pairwise_lt_finRange YMNUMREGISTERS))

/-- C5 witness at a concrete frame. -/
theorem nodedup_completeness_witness :
    (processFrame false initChipState ⟨fun i => (i.val : Int)⟩).pairs
        = ((List.finRange YMNUMREGISTERS).filter (fun i =>
            decide (0 ≤ (Snapshot.mk (fun i => (i.val : Int))).registers i))).map
            (fun i => (i.val,
              ((Snapshot.mk (fun i => (i.val : Int))).registers i).toNat))
    ∧ List.Pairwise (fun a b : Nat × Nat => a.1 < b.1)
        (processFrame false initChipState ⟨fun i => (i.val : Int)⟩).pairs :=
  nodedup_completeness initChipState ⟨fun i => (i.val : Int)⟩ (by decide)

/-- C7: a frame updates the chip state exactly at the registers it emits, each
to its snapshot value; non-emitted registers keep their prior chip-state value;
an unset register is never affected, and the chip-state values of unset
registers never influence the frame's emissions or the set registers' new
chip-state values. -/
theorem frame_effect (sk : Bool) (chip : ChipState) (snap : Snapshot) :
    (∀ i : Fin YMNUMREGISTERS,
      (∃ v, (i.val, v) ∈ (processFrame sk chip snap).pairs) →
        (processFrame sk chip snap).chip i = snap.registers i)
    ∧ (∀ i : Fin YMNUMREGISTERS,
      (∀ v, (i.val, v) ∉ (processFrame sk chip snap).pairs) →
        (processFrame sk chip snap).chip i = chip i)
    ∧ (∀ i : Fin YMNUMREGISTERS, ¬ 0 ≤ snap.registers i →
        (processFrame sk chip snap).chip i = chip i)
    ∧ (∀ chip2 : ChipState, (∀ k, 0 ≤ snap.registers k → chip2 k = chip k) →
        (processFrame sk chip2 snap).pairs = (processFrame sk chip snap).pairs
        ∧ ∀ k, 0 ≤ snap.registers k →
            (processFrame sk chip2 snap).chip k = (processFrame sk chip snap).chip k) := by
  have hcongr : ∀ chip2 : ChipState, (∀ k, 0 ≤ snap.registers k → chip2 k = chip k) →
      (processFrame sk chip2 snap).pairs = (processFrame sk chip snap).pairs
      ∧ ∀ k, 0 ≤ snap.registers k →
          (processFrame sk chip2 snap).chip k = (processFrame sk chip snap).chip k := by
    intro chip2 hagree
    unfold processFrame
    rw [changedCount_congr chip chip2 snap hagree]
    obtain ⟨hp, -, hc⟩ := scan_congr sk (changedCount chip snap) snap
      (List.finRange YMNUMREGISTERS) ⟨chip2, [], 0⟩ ⟨chip, [], 0⟩ rfl rfl
      (fun k hk => hagree k hk)
    exact ⟨hp, hc⟩
  cases sk with
  | false =>
    obtain ⟨h1, -, h3⟩ := processFrame_false_spec chip snap
    refine ⟨?_, ?_, ?_, hcongr⟩
    · rintro i ⟨v, hv⟩
      rw [h1] at hv
      have hset := of_decide_eq_true ((mem_filter_pairs_iff _ snap i v).mp hv).1
      rw [h3 i, if_pos hset]
    · intro i hni
      by_cases hset : 0 ≤ snap.registers i
      · exact absurd
          (by
            rw [h1]
            exact (mem_filter_pairs_iff _ snap i _).mpr ⟨decide_eq_true hset, rfl⟩)
          (hni ((snap.registers i).toNat % 256))
      · rw [h3 i, if_neg hset]
    · intro i hset
      rw [h3 i, if_neg hset]
  | true =>
    by_cases hz : changedCount chip snap = 0
    · obtain ⟨h1, -, h3⟩ := processFrame_true_zero_spec chip snap hz
      have hrep := (changedCount_eq_zero_iff chip snap).mp hz
      refine ⟨?_, ?_, ?_, hcongr⟩
      · rintro i ⟨v, hv⟩
        rw [h3 i]
        cases hf : (List.finRange YMNUMREGISTERS).find?
            (fun i => decide (0 ≤ snap.registers i)) with
        | none => rw [h1, hf] at hv; simp at hv
        | some i0 =>
          rw [h1, hf] at hv
          have heq : (i.val, v) = (i0.val, (snap.registers i0).toNat % 256) := by
            simpa using hv
          have hii : i = i0 := Fin.val_inj.mp (congrArg Prod.fst heq)
          subst hii
          have hset : 0 ≤ snap.registers i := by
            have := List.find?_some hf
            simpa using this
          exact (hrep i hset).symm
      · intro i _; exact h3 i
      · intro i _; exact h3 i
    · obtain ⟨h1, -, h3⟩ := processFrame_true_pos_spec chip snap hz
      refine ⟨?_, ?_, ?_, hcongr⟩
      · rintro i ⟨v, hv⟩
        rw [h1] at hv
        have hP := of_decide_eq_true ((mem_filter_pairs_iff _ snap i v).mp hv).1
        rw [h3 i, if_pos hP]
      · intro i hni
        by_cases hP : 0 ≤ snap.registers i ∧ snap.registers i ≠ chip i
        · exact absurd
            (by
              rw [h1]
              exact (mem_filter_pairs_iff _ snap i _).mpr ⟨decide_eq_true hP, rfl⟩)
            (hni ((snap.registers i).toNat % 256))
        · rw [h3 i, if_neg hP]
      · intro i hset
        rw [h3 i, if_neg (fun h => hset h.1)]

/-- A frame's `num_set` equals the number of recorded pairs. -/
theorem processFrame_num_eq (sk : Bool) (chip : ChipState) (snap : Snapshot) :
    (processFrame sk chip snap).num_set = (processFrame sk chip snap).pairs.length :=
  scan_num_eq sk (changedCount chip snap) snap (List.finRange YMNUMREGISTERS)
    ⟨chip, [], 0⟩ rfl

/-- A frame records at most `YMNUMREGISTERS` pairs. -/
theorem processFrame_num_le (sk : Bool) (chip : ChipState) (snap : Snapshot) :
    (processFrame sk chip snap).num_set ≤ YMNUMREGISTERS := by
  have := scan_num_le sk (changedCount chip snap) snap
    (List.finRange YMNUMREGISTERS) ⟨chip, [], 0⟩
  simpa [List.length_finRange] using this

/-- C10: with deduplication enabled, a frame's emission record is empty iff
its snapshot marks no register set; a frame with a set register appends
exactly its one record to the sample sequence, and a frame with none is
dropped. -/
theorem dedup_drop_iff (st : RunState) (snap : Snapshot) :
    ((processFrame true st.chip snap).pairs = [] ↔ ∀ i, ¬ 0 ≤ snap.registers i)
    ∧ ((∃ i, 0 ≤ snap.registers i) →
        (processSnapshot true st snap).samples
          = st.samples ++ [⟨(processFrame true st.chip snap).num_set,
              (processFrame true st.chip snap).pairs⟩])
    ∧ ((∀ i, ¬ 0 ≤ snap.registers i) →
        (processSnapshot true st snap).samples = st.samples) := by
  have hiff : (processFrame true st.chip snap).pairs = []
      ↔ ∀ i, ¬ 0 ≤ snap.registers i := by
    constructor
    · intro hemp
      by_contra hne
      push_neg at hne
      obtain ⟨i, hi⟩ := hne
      by_cases hz : changedCount st.chip snap = 0
      · obtain ⟨h1, -, -⟩ := processFrame_true_zero_spec st.chip snap hz
        cases hf : (List.finRange YMNUMREGISTERS).find?
            (fun i => decide (0 ≤ snap.registers i)) with
        | none =>
          have h2 := List.find?_eq_none.mp hf i (List.mem_finRange i)
          simp at h2
          omega
        | some i0 =>
          rw [h1, hf] at hemp
          simp at hemp
      · obtain ⟨h1, -, -⟩ := processFrame_true_pos_spec st.chip snap hz
        have hlen : (processFrame true st.chip snap).pairs.length
            = changedCount st.chip snap := by
          rw [h1, List.length_map, changedCount_eq_filter_length]
        rw [hemp] at hlen
        exact hz hlen.symm
    · intro hnone
      have hz : changedCount st.chip snap = 0 :=
        (changedCount_eq_zero_iff st.chip snap).mpr
          (fun i hi => absurd hi (hnone i))
      obtain ⟨h1, -, -⟩ := processFrame_true_zero_spec st.chip snap hz
      have hf : (List.finRange YMNUMREGISTERS).find?
          (fun i => decide (0 ≤ snap.registers i)) = none :=
        List.find?_eq_none.mpr (fun x _ => by simpa using hnone x)
      rw [h1, hf]
      rfl
  refine ⟨hiff, ?_, ?_⟩
  · intro hset
    have hne : (processFrame true st.chip snap).pairs ≠ [] := by
      intro h
      obtain ⟨i, hi⟩ := hset
      exact hiff.mp h i hi
    have hnum : (processFrame true st.chip snap).num_set ≠ 0 := by
      rw [processFrame_num_eq]
      exact fun h => hne (List.length_eq_zero.mp h)
    simp only [processSnapshot, if_pos hnum]
  · intro hnone
    have hnum : (processFrame true st.chip snap).num_set = 0 := by
      rw [processFrame_num_eq, hiff.mpr hnone]
      rfl
    simp only [processSnapshot, hnum]
    simp

/-- Any property of the appended per-frame record is an invariant of the
sample vector across the run. -/
theorem run_samples_inv (sk : Bool) (P : Sample → Prop)
    (hP : ∀ (chip : ChipState) (snap : Snapshot),
      P ⟨(processFrame sk chip snap).num_set, (processFrame sk chip snap).pairs⟩) :
    ∀ (snaps : List Snapshot) (st : RunState),
    (∀ s ∈ st.samples, P s) →
    ∀ s ∈ (snaps.foldl (processSnapshot sk) st).samples, P s
  | [], st => fun h => h
  | snap :: snaps, st => by
    intro h
    rw [List.foldl_cons]
    apply run_samples_inv sk P hP snaps
    intro s hs
    simp only [processSnapshot] at hs
    by_cases hnum : (processFrame sk st.chip snap).num_set ≠ 0
    · rw [if_pos hnum] at hs
      rcases List.mem_append.mp hs with h1 | h1
      · exact h s h1
      · have hseq : s = ⟨(processFrame sk st.chip snap).num_set,
            (processFrame sk st.chip snap).pairs⟩ := by simpa using h1
        rw [hseq]
        exact hP st.chip snap
    · rw [if_neg hnum] at hs
      exact h s hs

/-- C6: every emission record of any run declares a count equal to its number
of pairs, never exceeding the register count, and fitting one unsigned byte. -/
theorem record_count_invariant (sk : Bool) (snaps : List Snapshot) :
    ∀ s ∈ (runTracker sk snaps).samples,
      s.num = s.pairs.length ∧ s.num ≤ YMNUMREGISTERS ∧ s.num < 256 := by
  have hP : ∀ (chip : ChipState) (snap : Snapshot),
      (Sample.mk (processFrame sk chip snap).num_set
        (processFrame sk chip snap).pairs).num
          = (Sample.mk (processFrame sk chip snap).num_set
              (processFrame sk chip snap).pairs).pairs.length
      ∧ (Sample.mk (processFrame sk chip snap).num_set
          (processFrame sk chip snap).pairs).num ≤ YMNUMREGISTERS
      ∧ (Sample.mk (processFrame sk chip snap).num_set
          (processFrame sk chip snap).pairs).num < 256 := by
    intro chip snap
    refine ⟨processFrame_num_eq sk chip snap, processFrame_num_le sk chip snap, ?_⟩
    show (processFrame sk chip snap).num_set < 256
    have h1 := processFrame_num_le sk chip snap
    have h2 : YMNUMREGISTERS = 16 := rfl
    omega
  exact run_samples_inv sk
    (fun s => s.num = s.pairs.length ∧ s.num ≤ YMNUMREGISTERS ∧ s.num < 256)
    hP snaps ⟨initChipState, []⟩ (by simp)

/-- The scenario snapshot setting all 16 registers to their own id. -/
def snapAll : Snapshot := ⟨fun i => (i.val : Int)⟩

/-- The scenario snapshot setting only register 4, to value 99. -/
def snapReg4 : Snapshot := ⟨fun i => if i.val = 4 then 99 else -1⟩

/-- The 16 pairs (i, i) emitted for the first scenario frame. -/
def allIdPairs : List (Nat × Nat) :=
  [(0, 0), (1, 1), (2, 2), (3, 3), (4, 4), (5, 5), (6, 6), (7, 7), (8, 8),
   (9, 9), (10, 10), (11, 11), (12, 12), (13, 13), (14, 14), (15, 15)]

/-- C6 witness: the record of the scenario's first frame. -/
theorem record_count_invariant_witness :
    (Sample.mk 16 allIdPairs).num = (Sample.mk 16 allIdPairs).pairs.length
    ∧ (Sample.mk 16 allIdPairs).num ≤ YMNUMREGISTERS
    ∧ (Sample.mk 16 allIdPairs).num < 256 :=
  record_count_invariant true [snapAll] (Sample.mk 16 allIdPairs)
    (by decide)

set_option maxRecDepth 8000 in
/-- C4: from a fresh chip state with deduplication on, the three-frame
scenario (all registers to their ids; an identical repeat; only register 4 to
99) yields exactly three samples: all 16 pairs, then the single re-emitted
pair (0, 0), then the single pair (4, 99). -/
theorem scenario_three_frames :
    (runTracker true [snapAll, snapAll, snapReg4]).samples
      = [⟨16, allIdPairs⟩, ⟨1, [(0, 0)]⟩, ⟨1, [(4, 99)]⟩] := by
  decide

theorem encodeLE_length : ∀ (k n : Nat), (encodeLE k n).length = k
  | 0, _ => rfl
  | k + 1, n => by simp [encodeLE, encodeLE_length k (n / 256)]

theorem decode_encodeLE : ∀ (k n : Nat), n < 256 ^ k →
    decodeLE (encodeLE k n) = n
  | 0, n, h => by
    have : n = 0 := by simpa using Nat.lt_one_iff.mp (by simpa using h)
    simp [this, encodeLE, decodeLE]
  | k + 1, n, h => by
    have hdiv : n / 256 < 256 ^ k := by
      rw [Nat.div_lt_iff_lt_mul (by norm_num : 0 < 256)]
      calc n < 256 ^ (k + 1) := h
      _ = 256 ^ k * 256 := by ring
    rw [encodeLE, decodeLE, decode_encodeLE k (n / 256) hdiv]
    omega

theorem readBytes_exact (k : Nat) (xs rest : List Nat) (h : xs.length = k) :
    readBytes k (xs ++ rest) = some (xs, rest) := by
  subst h
  rw [readBytes, if_pos (by simp)]
  rw [List.take_left, List.drop_left]

theorem readPairs_round : ∀ (ps : List (Nat × Nat)) (rest : List Nat),
    readPairs ps.length (ps.flatMap (fun p => [p.1, p.2]) ++ rest)
      = some (ps, rest)
  | [], rest => rfl
  | p :: ps, rest => by
    have hcons : (p :: ps).flatMap (fun p => [p.1, p.2]) ++ rest
        = p.1 :: p.2 :: (ps.flatMap (fun p => [p.1, p.2]) ++ rest) := by
      simp
    rw [List.length_cons, hcons, readPairs, readPairs_round ps rest]

theorem readRecords_round : ∀ (samples : List Sample) (rest : List Nat),
    (∀ s ∈ samples, s.num = s.pairs.length) →
    readRecords samples.length (samples.flatMap sampleRecord ++ rest)
      = some (samples.map (fun s => (s.num, s.pairs)), rest)
  | [], rest, _ => rfl
  | s :: ss, rest, hwf => by
    have hnum : s.num = s.pairs.length := hwf s (List.mem_cons_self s ss)
    have htake : s.pairs.take s.num = s.pairs := by
      rw [hnum]; exact List.take_length s.pairs
    have hcons : (s :: ss).flatMap sampleRecord ++ rest
        = s.num :: (s.pairs.flatMap (fun p => [p.1, p.2])
            ++ (ss.flatMap sampleRecord ++ rest)) := by
      simp [sampleRecord, htake]
    rw [List.length_cons, hcons, readRecords, hnum,
      readPairs_round s.pairs (ss.flatMap sampleRecord ++ rest)]
    simp [readRecords_round ss rest (fun t ht => hwf t (List.mem_cons_of_mem s ht)), hnum]

/-- The binary stream parses back to exactly its header fields and its
samples: the declared layout is the actual layout. -/
theorem readPSYM_psymOutput (clockFreq rateHz : Nat) (samples : List Sample)
    (hclock : clockFreq < 2 ^ 32) (hrate : rateHz < 256)
    (hcount : samples.length < 2 ^ 64)
    (hwf : ∀ s ∈ samples, s.num = s.pairs.length) :
    readPSYM (psymOutput clockFreq rateHz samples)
      = some (clockFreq, rateHz, samples.length,
          samples.map (fun s => (s.num, s.pairs))) := by
  have hassoc : psymOutput clockFreq rateHz samples
      = magicPSYM ++ (encodeLE 4 clockFreq ++ (encodeLE 1 rateHz ++
          (encodeLE 8 samples.length ++ samples.flatMap sampleRecord))) := by
    simp [psymOutput, List.append_assoc]
  have e5 := readBytes_exact 5 magicPSYM
    (encodeLE 4 clockFreq ++ (encodeLE 1 rateHz ++
      (encodeLE 8 samples.length ++ samples.flatMap sampleRecord))) rfl
  have e4 := readBytes_exact 4 (encodeLE 4 clockFreq)
    (encodeLE 1 rateHz ++ (encodeLE 8 samples.length ++ samples.flatMap sampleRecord))
    (encodeLE_length 4 clockFreq)
  have e1 := readBytes_exact 1 (encodeLE 1 rateHz)
    (encodeLE 8 samples.length ++ samples.flatMap sampleRecord)
    (encodeLE_length 1 rateHz)
  have e8 := readBytes_exact 8 (encodeLE 8 samples.length)
    (samples.flatMap sampleRecord) (encodeLE_length 8 samples.length)
  have hdec8 : decodeLE (encodeLE 8 samples.length) = samples.length :=
    decode_encodeLE 8 samples.length (by
      have : (256 : Nat) ^ 8 = 2 ^ 64 := by norm_num
      omega)
  have erec : readRecords samples.length (samples.flatMap sampleRecord)
      = some (samples.map (fun s => (s.num, s.pairs)), []) := by
    have := readRecords_round samples [] hwf
    simpa using this
  rw [readPSYM, hassoc, e5]
  simp only [Option.some_bind, if_pos rfl, e4, e1, e8, hdec8, erec]
  simp only [if_true]
  have hdec4 : decodeLE (encodeLE 4 clockFreq) = clockFreq :=
    decode_encodeLE 4 clockFreq (by
      have : (256 : Nat) ^ 4 = 2 ^ 32 := by norm_num
      omega)
  have hdec1 : decodeLE (encodeLE 1 rateHz) = rateHz :=
    decode_encodeLE 1 rateHz (by
      have : (256 : Nat) ^ 1 = 256 := by norm_num
      omega)
  rw [hdec4, hdec1]

theorem length_pairBytes : ∀ (l : List (Nat × Nat)),
    (l.flatMap (fun p => [p.1, p.2])).length = 2 * l.length
  | [] => rfl
  | p :: l => by
    simp only [List.flatMap_cons, List.length_append, List.length_cons,
      List.length_nil, List.length_cons, length_pairBytes l]
    omega

/-- C2: the binary output is the 5-byte magic, the 4-byte little-endian clock,
the 1-byte rate, the 8-byte little-endian sample count, then one record of
1 + 2N bytes per sample with no padding, and a reader consuming exactly the
declared fields and sample-count records recovers every field and record and
exhausts the stream. -/
theorem binary_format_contract (clockFreq rateHz : Nat) (samples : List Sample)
    (hclock : clockFreq < 2 ^ 32) (hrate : rateHz < 256)
    (hcount : samples.length < 2 ^ 64)
    (hwf : ∀ s ∈ samples, s.num = s.pairs.length) :
    readPSYM (psymOutput clockFreq rateHz samples)
      = some (clockFreq, rateHz, samples.length,
          samples.map (fun s => (s.num, s.pairs)))
    ∧ (psymOutput clockFreq rateHz samples).length
      = 18 + (samples.flatMap sampleRecord).length
    ∧ ∀ s ∈ samples, (sampleRecord s).length = 1 + 2 * s.num := by
  refine ⟨readPSYM_psymOutput clockFreq rateHz samples hclock hrate hcount hwf,
    ?_, ?_⟩
  · simp [psymOutput, encodeLE_length, magicPSYM]
    omega
  · intro s hs
    have hnum : s.num = s.pairs.length := hwf s hs
    have htake : s.pairs.take s.num = s.pairs := by
      rw [hnum]; exact List.take_length s.pairs
    simp only [sampleRecord, htake, List.length_cons, length_pairBytes]
    omega

/-- C2 witness: a concrete one-sample stream. -/
theorem binary_format_contract_witness :
    readPSYM (psymOutput 2000000 50 ([⟨1, [(4, 99)]⟩] : List Sample))
      = some (2000000, 50, ([⟨1, [(4, 99)]⟩] : List Sample).length,
          ([⟨1, [(4, 99)]⟩] : List Sample).map (fun s => (s.num, s.pairs)))
    ∧ (psymOutput 2000000 50 ([⟨1, [(4, 99)]⟩] : List Sample)).length
      = 18 + (([⟨1, [(4, 99)]⟩] : List Sample).flatMap sampleRecord).length
    ∧ ∀ s ∈ ([⟨1, [(4, 99)]⟩] : List Sample),
        (sampleRecord s).length = 1 + 2 * s.num :=
  binary_format_contract 2000000 50 ([⟨1, [(4, 99)]⟩] : List Sample)
    (by decide) (by decide) (by decide) (by decide)

/-- C9: on the empty frame sequence both outputs are the valid degenerate
streams: the binary stream declares sample count 0 and holds zero records;
the textual output declares `num` 0 and renders zero samples. -/
theorem empty_run_degenerate (clockFreq rateHz : Nat)
    (hclock : clockFreq < 2 ^ 32) (hrate : rateHz < 256) :
    readPSYM (psymOutput clockFreq rateHz []) = some (clockFreq, rateHz, 0, [])
    ∧ pythonOutput clockFreq rateHz []
      = pyHeader clockFreq rateHz 0 ++ "Song = [\n" ++ "]\n" := by
  constructor
  · have h := readPSYM_psymOutput clockFreq rateHz [] hclock hrate
      (by norm_num) (by simp)
    simpa using h
  · simp [pythonOutput, pyBody]

/-- C9 witness at the program's fixed clock and rate. -/
theorem empty_run_degenerate_witness :
    readPSYM (psymOutput 2000000 50 []) = some (2000000, 50, 0, [])
    ∧ pythonOutput 2000000 50 []
      = pyHeader 2000000 50 0 ++ "Song = [\n" ++ "]\n" :=
  empty_run_degenerate 2000000 50 (by decide) (by decide)

theorem visChars_append (a b : String) :
    visChars (a ++ b) = visChars a ++ visChars b := by
  simp [visChars, String.data_append, List.filter_append]

/-- Erasing the cosmetic wrapping, the code's `Song` listing renders exactly
the unwrapped sample sequence. -/
theorem visChars_pyBody : ∀ (ss : List Sample),
    (∀ s ∈ ss, s.num = s.pairs.length) →
    ∀ rc : Nat, visChars (pyBody ss rc) = visChars (specBody ss)
  | [], _, rc => rfl
  | s :: rest, hwf, rc => by
    have htake : s.pairs.take s.num = s.pairs := by
      rw [hwf s (List.mem_cons_self s rest)]
      exact List.take_length s.pairs
    have ihr := visChars_pyBody rest (fun t ht => hwf t (List.mem_cons_of_mem s ht))
    have hpre : visChars (if rc = 0 then "\t" else "") = [] := by
      split <;> decide
    have hnl : visChars "\n" = [] := by decide
    simp only [pyBody, specBody, htake]
    split
    · simp [visChars_append, hpre, hnl, ihr]
    · simp [visChars_append, hpre, hnl, ihr]

set_option maxRecDepth 4000 in
/-- C8 counterexample: even erasing cosmetic whitespace, the textual output of
a run at the program's clock 2000000 and rate 50 differs from the spec's
claimed rendering — the code prints the rate `uint8_t` as the raw character
with code 50 (the digit `2`), not the numeral 50. -/
theorem textual_format_counterexample :
    visChars (pythonOutput 2000000 50 [])
      ≠ visChars (specTextualOutput 2000000 50 []) := by
  decide

/-- C8 amended: modulo cosmetic line wrapping, the textual output is the
metadata mapping with the clock and sample count as decimal numerals, the
sample-rate byte rendered as one raw character, and the ordered sample
sequence rendered as bracketed (register, value) decimal pair lists. -/
theorem textual_format_contract_amended (clockFreq rateHz : Nat)
    (samples : List Sample) (hwf : ∀ s ∈ samples, s.num = s.pairs.length) :
    visChars (pythonOutput clockFreq rateHz samples)
      = visChars (specTextualAmended clockFreq rateHz samples) := by
  unfold pythonOutput specTextualAmended
  simp only [visChars_append]
  rw [visChars_pyBody samples hwf 0]

set_option maxRecDepth 4000 in
/-- C8 amended witness at a concrete run. -/
theorem textual_format_contract_amended_witness :
    visChars (pythonOutput 2000000 50 ([⟨1, [(4, 99)]⟩] : List Sample))
      = visChars (specTextualAmended 2000000 50 ([⟨1, [(4, 99)]⟩] : List Sample)) :=
  textual_format_contract_amended 2000000 50 ([⟨1, [(4, 99)]⟩] : List Sample)
    (by decide)
